import Mathlib

/-!
# Verification of the chanvas compression/streaming pipeline

Shallow embedding of the core of `src/app.py` (the course-aware streaming
compression pipeline of the chanvas repository): the tokenizer adapter in its
fallback (no real tokenizer) configuration, the course segmenter
`_split_stream_by_course`, the per-block budget computation of
`stream_compress_corpus_blocks`, the embedding indexer
(`openai_embed` / `persist_compressed_and_index`), the boot-time recovery pass
`_resume_interrupted_jobs`, and the single global job slot (`JOB_LOCK` /
`_wait_for_job_slot` / `_release_job_slot`) as a transition system.

Modelling conventions:
* Python strings are sequences of code points; slicing, length and prefixes are
  modelled on `List Char` (helpers `strTake`, `strLen`).  The real `tiktoken`
  tokenizer is an external collaborator; the embedding models the source's own
  fallback codec (4-character slices, `max(1, len // 4)` estimation), which is
  the only tokenizer fully defined in the repository.
* Python `int()` on a non-negative float is modelled as `Int.toNat ∘ Rat.floor`;
  float arithmetic (`126000 / total`, `in_est * ratio`) is modelled exactly over
  `ℚ`.
* Fallible code returns nothing special here except `openai_embed`, which is
  modelled with `Except` (its `RuntimeError`), taking the parsed backend
  response as an explicit argument.
-/

namespace Chanvas

/-! ## Python string primitives -/

/-- Python `text[:n]` (character slicing) on a Lean `String`. -/
def strTake (s : String) (n : ℕ) : String := String.mk (s.toList.take n)

/-- Python `len(text)` (number of code points). -/
def strLen (s : String) : ℕ := s.toList.length

/-- The whitespace characters of Python's `str.strip()` / `\s` (ASCII range). -/
def isSpaceChar (c : Char) : Bool :=
  c = ' ' || c = '\t' || c = '\n' || c = '\r' || c = '\x0b' || c = '\x0c'

/-- Strip leading and trailing whitespace from a character list. -/
def trimChars (cs : List Char) : List Char :=
  ((cs.dropWhile isSpaceChar).reverse.dropWhile isSpaceChar).reverse

/-- Python `s.strip()`. -/
def pyStrip (s : String) : String := String.mk (trimChars s.toList)

/-! ## Tokenizer adapter (fallback codec), from `app.py` lines 478-567

With `tiktoken` unavailable, `get_encoder` returns `None` and every branch of
the tokenizer adapter uses the fixed 4-chars-per-token heuristic.  The `model`
argument is kept for interface fidelity; the fallback ignores it exactly as the
source does. -/

/-- Model of `estimate_tokens(text, model)`: fallback branch `max(1, len(text) // 4)`
(`app.py` line 494). -/
def estimate_tokens (text : String) (_model : String) : ℕ :=
  max 1 (strLen text / 4)

/-- The indexed fixed-size slicing loop shared by `encode_text` (`for i in
range(0, len(text), step)`, `app.py` line 518) and the block/chunk loops
(`for i in range(num_blocks)` with `toks[i*bt : min(len, (i+1)*bt)]`,
`app.py` lines 1044-1052 and 1132-1134): `⌈l.length / k⌉` contiguous slices of
at most `k` elements. -/
def sliceEvery (k : ℕ) (l : List α) : List (List α) :=
  (List.range ((l.length + k - 1) / k)).map (fun i => (l.drop (i * k)).take k)

/-- Model of `encode_text(text, model)`: fallback branch, the list of 4-character slices
`text[i:i+4]` for `i in range(0, len(text), 4)` (`app.py` lines 514-520),
as character lists.  `range(0, n, 4)` has `⌈n/4⌉` elements. -/
def encode_text (text : String) : List (List Char) :=
  sliceEvery 4 text.toList

/-- Model of `decode_tokens(tokens, None)`: concatenation (`app.py` line 536). -/
def decode_tokens (toks : List (List Char)) : String := String.mk toks.flatten

/-- The binary-search loop of `truncate_to_tokens` (`app.py` lines 556-566):
`while lo <= hi: mid = (lo+hi)//2; cand = text[:mid]; ...`.
Python `//` is floor division; Lean's `Int` `/` is Euclidean division, which for
the positive divisor 2 coincides with floor division. In every reachable call
`lo ≥ 0`, so `text[:mid]` is plain prefix slicing, modelled by
`strTake text mid.toNat`. -/
def truncLoop (mt : ℕ) (model : String) (text : String) (lo hi : Int) (best : String) : String :=
  if _h : lo ≤ hi then
    if estimate_tokens (strTake text ((lo + hi) / 2).toNat) model ≤ mt then
      truncLoop mt model text ((lo + hi) / 2 + 1) hi (strTake text ((lo + hi) / 2).toNat)
    else
      truncLoop mt model text lo ((lo + hi) / 2 - 1) best
  else best
termination_by (hi + 1 - lo).toNat
decreasing_by
  · omega
  · omega

/-- Model of `truncate_to_tokens(text, max_tokens, model)` (`app.py` lines 538-567). -/
def truncate_to_tokens (text : String) (mt : ℕ) (model : String) : String :=
  if estimate_tokens text model ≤ mt then text
  else truncLoop mt model text 0 (strLen text) ""

/-! ## Course segmenter `_split_stream_by_course` (`app.py` lines 902-967)

The three regular expressions of the source are modelled by direct scanners over
the line's characters:

* `course_url_re = https?://[^\s)]+/courses/(\d+)`  →  `findCourseId`
* `course_done_re = \[log\]\s*\[course done\]\s*(\d+)`  →  `findDone`
* `snippet_name_re = \[([^\]]+?)\]\s+PAGE\s+https?://`  →  `findName`

Each scanner tries every start position left to right (`re.search`).  For the
url pattern, the greedy `[^\s)]+` with backtracking makes the literal
`/courses/(\d+)` match at the rightmost possible position inside the maximal
run of non-whitespace/non-`)` characters following the scheme. -/

/-- Length of a leading `http://` or `https://` scheme, if present
(the `https?://` part of the url pattern). -/
def schemeLen (cs : List Char) : Option ℕ :=
  if cs.take 7 = "http://".toList then some 7
  else if cs.take 8 = "https://".toList then some 8
  else none

/-- Pattern `/courses/(\d+)` matching at offset `p` inside the run. -/
def coursesAt (run : List Char) (p : ℕ) : Option (List Char) :=
  let tail := run.drop p
  if tail.take 9 = "/courses/".toList then
    let ds := (tail.drop 9).takeWhile Char.isDigit
    if ds = [] then none else some ds
  else none

/-- Try offsets `p, p-1, ..., 1` and return the first hit: the rightmost
position at which the backtracking `[^\s)]+` lets `/courses/(\d+)` match
(the split point must leave at least one character for `[^\s)]+`). -/
def coursesSearchDesc (run : List Char) : ℕ → Option (List Char)
  | 0 => none
  | p + 1 =>
    match coursesAt run (p + 1) with
    | some ds => some ds
    | none => coursesSearchDesc run p

/-- Attempt the whole url pattern anchored at the current position. -/
def courseUrlAt (cs : List Char) : Option (List Char) :=
  match schemeLen cs with
  | none => none
  | some k =>
    let run := (cs.drop k).takeWhile (fun c => !isSpaceChar c && c ≠ ')')
    coursesSearchDesc run run.length

/-- Model of `course_url_re.search(line)`: the captured course id digits. -/
def findCourseId : List Char → Option String
  | [] => none
  | c :: rest =>
    match courseUrlAt (c :: rest) with
    | some ds => some (String.mk ds)
    | none => findCourseId rest

/-- Pattern `\[log\]\s*\[course done\]\s*(\d+)` anchored at the current position. -/
def doneAt (cs : List Char) : Option (List Char) :=
  if cs.take 5 = "[log]".toList then
    let r1 := (cs.drop 5).dropWhile isSpaceChar
    if r1.take 13 = "[course done]".toList then
      let ds := ((r1.drop 13).dropWhile isSpaceChar).takeWhile Char.isDigit
      if ds = [] then none else some ds
    else none
  else none

/-- Model of `course_done_re.search(line)`: the captured course id digits. -/
def findDone : List Char → Option String
  | [] => none
  | c :: rest =>
    match doneAt (c :: rest) with
    | some ds => some (String.mk ds)
    | none => findDone rest

/-- Pattern `\[([^\]]+?)\]\s+PAGE\s+https?://` anchored at the current position: the
lazy group stops at the first `]`, then at least one whitespace, the literal
`PAGE`, at least one whitespace and a url scheme must follow. -/
def nameAt (cs : List Char) : Option (List Char) :=
  match cs with
  | '[' :: rest =>
    let content := rest.takeWhile (fun c => c ≠ ']')
    match rest.drop content.length with
    | ']' :: a2 =>
      if content = [] then none
      else
        let sp1 := a2.takeWhile isSpaceChar
        if sp1 = [] then none
        else
          let a3 := a2.drop sp1.length
          if a3.take 4 = "PAGE".toList then
            let a4 := a3.drop 4
            let sp2 := a4.takeWhile isSpaceChar
            if sp2 = [] then none
            else if (schemeLen (a4.drop sp2.length)).isSome then some content
            else none
          else none
    | _ => none
  | _ => none

/-- Model of `snippet_name_re.search(line)`: the captured bracketed label (group 1,
before the source's `.strip()`). -/
def findName : List Char → Option String
  | [] => none
  | c :: rest =>
    match nameAt (c :: rest) with
    | some nm => some (String.mk nm)
    | none => findName rest

/-- A produced course segment (`app.py` lines 903-905). -/
structure Segment where
  course_id : String
  course_name : String
  text : String
deriving DecidableEq

/-- The loop state of `_split_stream_by_course`: `cur_id`, `cur_name`
(Python `None` ↦ `none`), line buffer `buf` and accumulated `parts`. -/
structure SplitState where
  cur_id : Option String
  cur_name : Option String
  buf : List String
  parts : List Segment
deriving DecidableEq

/-- Python `cur_name or f"course {cur_id}"` (empty string is falsy). -/
def nameOr (cur_name : Option String) (cid : String) : String :=
  match cur_name with
  | some n => if n = "" then "course " ++ cid else n
  | none => "course " ++ cid

/-- Python `cur_name or "GLOBAL"` in the trailing flush. -/
def nameOrGlobal (cur_name : Option String) : String :=
  match cur_name with
  | some n => if n = "" then "GLOBAL" else n
  | none => "GLOBAL"

/-- Python `"\n".join(buf)`. -/
def joinLines : List String → String
  | [] => ""
  | [s] => s
  | s :: rest => s ++ "\n" ++ joinLines rest

/-- Phase 1 of the per-line processing (`app.py` lines 923-926): capture the
human-readable course label (overwrites, does not flush). -/
def stepNameP (st : SplitState) (line : String) : SplitState :=
  match findName line.toList with
  | some nm => { st with cur_name := some (pyStrip nm) }
  | none => st

/-- Phase 2 (`app.py` lines 928-943): detect a course id from a url; open a
course if none is open, and on a *different* id flush the buffer as a segment
under the previous id/name, then open the new id. -/
def stepUrlP (st : SplitState) (line : String) : SplitState :=
  match findCourseId line.toList with
  | none => st
  | some cid =>
    match st.cur_id with
    | none => { st with cur_id := some cid }
    | some c =>
      if cid ≠ c then
        let st' :=
          if st.buf ≠ [] then
            { st with
              parts := st.parts ++ [⟨c, nameOr st.cur_name c, pyStrip (joinLines st.buf)⟩],
              buf := [] }
          else st
        { st' with cur_id := some cid }
      else st

/-- Phase 3 (`app.py` line 946): append the line to the buffer unconditionally. -/
def stepAppendP (st : SplitState) (line : String) : SplitState :=
  { st with buf := st.buf ++ [line] }

/-- Phase 4 (`app.py` lines 948-958): explicit course-done sentinel for the
currently open id flushes immediately and resets `cur_id`/`cur_name`. -/
def stepDoneP (st : SplitState) (line : String) : SplitState :=
  match findDone line.toList with
  | none => st
  | some d =>
    match st.cur_id with
    | none => st
    | some c =>
      if d = c then
        { st with
          parts := st.parts ++ [⟨c, nameOr st.cur_name c, pyStrip (joinLines st.buf)⟩],
          buf := [], cur_id := none, cur_name := none }
      else st

/-- One iteration of the `for line in raw.splitlines()` loop, in the source's
fixed phase order: name capture → id detection → buffer append → done-check. -/
def splitStep (st : SplitState) (line : String) : SplitState :=
  stepDoneP (stepAppendP (stepUrlP (stepNameP st line) line) line) line

/-- Split a character list at `'\n'` separators. -/
def splitNl : List Char → List (List Char)
  | [] => [[]]
  | c :: rest =>
    match splitNl rest with
    | [] => [[c]]
    | l :: ls => if c = '\n' then [] :: l :: ls else (c :: l) :: ls

/-- Python `raw.splitlines()` for `\n`-separated text: like splitting at each
`'\n'`, except that a trailing newline does not produce a final empty line and
the empty string has no lines. -/
def splitLines (s : String) : List String :=
  if s.toList = [] then []
  else
    let ps := splitNl s.toList
    (if ps.getLast? = some [] then ps.dropLast else ps).map String.mk

/-- Model of `_split_stream_by_course(raw)` (`app.py` lines 902-967): fold the per-line
step over the lines, then flush any trailing non-empty buffer (`cur_id or
"GLOBAL"`, `cur_name or "GLOBAL"`). -/
def _split_stream_by_course (raw : String) : List Segment :=
  let fin := (splitLines raw).foldl splitStep ⟨none, none, [], []⟩
  if fin.buf ≠ [] then
    fin.parts ++ [⟨fin.cur_id.getD "GLOBAL", nameOrGlobal fin.cur_name, pyStrip (joinLines fin.buf)⟩]
  else fin.parts

/-! ## Block compressor `stream_compress_corpus_blocks` (`app.py` lines 969-1122)

The pipeline is modelled up to the point of the external summarization calls:
for every course segment and every non-skipped block it records the estimated
input token count and the `max_tokens` budget passed to the call.  The actual
call result is abstracted as an arbitrary output token count bounded by the
budget (claim C2's hypothesis). -/

/-- Constant `MODEL_MAX_OUT = 16384` (`app.py` line 1026). -/
def MODEL_MAX_OUT : ℕ := 16384

/-- Constant `COMPRESSION_MODEL` default (`app.py` line 280); the fallback tokenizer
ignores it. -/
def COMPRESSION_MODEL : String := "gpt-4.1-mini"

/-- Model of `target_ratio_global = min(1.0, 126000 / float(total_tokens))`
(`app.py` line 1001), modelled exactly over `ℚ`. -/
def target_ratio_global (total : ℕ) : ℚ := min 1 (126000 / (total : ℚ))

/-- The per-block output budget (`app.py` lines 1058-1059):
`target_out = int(in_tokens_est * target_ratio_global)`;
`max_out_tokens = min(MODEL_MAX_OUT, max(512, target_out))`.
Python `int()` truncates toward zero, i.e. takes the floor of this
non-negative product. -/
def blockBudget (inEst : ℕ) (r : ℚ) : ℕ :=
  min MODEL_MAX_OUT (max 512 (Int.toNat ⌊(inEst : ℚ) * r⌋))

/-- Modelled from the spec: the spec's own budget formula
`min(MODEL_MAX_OUT, max(512, round(block_input_tokens * target_ratio)))`, with
`round` as rounding to the nearest integer.  Declared only to be compared with
`blockBudget`, the formula the source actually computes. -/
def specRoundBudget (inEst : ℕ) (r : ℚ) : ℕ :=
  min MODEL_MAX_OUT (max 512 (Int.toNat (round ((inEst : ℚ) * r))))

/-- The block slicing of one segment's token list (`app.py` lines 1044-1052):
`num_blocks = ceil(len(toks)/block_tokens)`; block `i` is
`toks[i*block_tokens : min(len, (i+1)*block_tokens)]`. -/
def blocksOfToks (bt : ℕ) (toks : List (List Char)) : List (List (List Char)) :=
  sliceEvery bt toks

/-- One recorded summarization call: the block's estimated input tokens and the
`max_tokens` budget of the request (`app.py` lines 1057-1059, 1087). -/
structure BlockEvent where
  inEst : ℕ
  budget : ℕ
deriving DecidableEq

/-- The per-segment block loop (`app.py` lines 1049-1059): decode each block
back to text, skip it when `part_text.strip()` is empty, otherwise estimate its
input tokens and compute the output budget from the global ratio. -/
def blockEventsOfSeg (bt : ℕ) (r : ℚ) (t : String) : List BlockEvent :=
  (blocksOfToks bt (encode_text t)).filterMap (fun blk =>
    if pyStrip (decode_tokens blk) = "" then none
    else some ⟨estimate_tokens (decode_tokens blk) COMPRESSION_MODEL,
               blockBudget (estimate_tokens (decode_tokens blk) COMPRESSION_MODEL) r⟩)

/-- Model of `total_tokens` (`app.py` lines 990-995): the sum of the segment-local token
list lengths. -/
def totalTokensOf (segs : List Segment) : ℕ :=
  (segs.map (fun s => (encode_text s.text).length)).sum

/-- The sequence of summarization calls issued by
`stream_compress_corpus_blocks(raw, ..., block_tokens)` (`app.py` lines
969-1122): split by course, compute the single global ratio from the total
token count, then process every segment's blocks in order.  Empty corpora
(`total_tokens <= 0`, line 997) issue no calls. -/
def stream_compress_events (raw : String) (bt : ℕ) : List BlockEvent :=
  if totalTokensOf (_split_stream_by_course raw) = 0 then []
  else
    ((_split_stream_by_course raw).map (fun s =>
      blockEventsOfSeg bt
        (target_ratio_global (totalTokensOf (_split_stream_by_course raw))) s.text)).flatten

/-! ## Corpus indexer: `openai_embed` and `persist_compressed_and_index`
(`app.py` lines 687-715 and 1148-1218) -/

/-- One element of the backend response's `data` list; `item.get("embedding",
[])` defaults a missing key to the empty vector (`app.py` line 711). -/
structure EmbedItem where
  embedding : Option (List ℚ)
deriving DecidableEq

/-- The parsed JSON of a successful embeddings response: `data.get("data", [])`
(`app.py` line 710). -/
structure EmbedResponse where
  data : List EmbedItem
deriving DecidableEq

/-- Model of `openai_embed(texts)` (`app.py` lines 687-715), given the parsed backend
response: collect one vector per response item and raise `RuntimeError` when
the count differs from the number of input texts. -/
def openai_embed (texts : List String) (resp : EmbedResponse) : Except String (List (List ℚ)) :=
  if (resp.data.map (fun it => it.embedding.getD [])).length ≠ texts.length then
    Except.error "Embedding count mismatch"
  else Except.ok (resp.data.map (fun it => it.embedding.getD []))

/-- Model of `chunk_for_embeddings(text, model, chunk_tokens)` (`app.py` lines
1127-1135): empty for whitespace-only text, otherwise the decoded fixed-size
token slices. -/
def chunk_for_embeddings (text : String) (chunk_tokens : ℕ) : List String :=
  if pyStrip text = "" then []
  else (blocksOfToks chunk_tokens (encode_text text)).map decode_tokens

/-- The chunk rows committed for one document by `persist_compressed_and_index`
(`app.py` lines 1186-1214): chunks are added and committed only after
`openai_embed` returns; the `except` clause catches any exception, so a
count-mismatch error leaves zero committed chunk rows. -/
def persist_compressed_and_index (compressed : String) (chunk_tokens : ℕ)
    (resp : EmbedResponse) : List (String × List ℚ) :=
  if pyStrip compressed = "" then []
  else if chunk_for_embeddings compressed chunk_tokens = [] then []
  else
    match openai_embed (chunk_for_embeddings compressed chunk_tokens) resp with
    | Except.error _ => []
    | Except.ok embeddings => (chunk_for_embeddings compressed chunk_tokens).zip embeddings

/-! ## Boot-time recovery pass `_resume_interrupted_jobs`
(`app.py` lines 1415-1430) -/

/-- The relational job record, restricted to what the recovery pass touches. -/
structure JobRec where
  id : String
  status : String
deriving DecidableEq

/-- The exact status filter of the recovery query (`app.py` lines 1418-1420). -/
def resumeStatuses : List String := ["queued", "starting", "logging_in", "compressing"]

/-- Model of `_resume_interrupted_jobs()` over the job table: every job whose status is
in the filter list is re-marked `queued`; no other row is touched. -/
def _resume_interrupted_jobs (jobs : List JobRec) : List JobRec :=
  jobs.map (fun j => if j.status ∈ resumeStatuses then { j with status := "queued" } else j)

/-! ## Single-worker scheduler: `JOB_LOCK` as a transition system
(`app.py` lines 1282-1320, 1380-1387)

Worker threads execute `worker()`: `_wait_for_job_slot(job_id)` (which returns
only once `JOB_LOCK.acquire` has succeeded — either the non-blocking fast path
or the timeout-polling loop, both a single atomic acquire), then
`run_scrape_and_index` (the crawl+compress critical section), then
`_release_job_slot()` in the `finally` block.  Status writes and log appends do
not touch the lock and are irrelevant to exclusivity. -/

/-- The phase of one worker thread: before the slot, inside the critical
section, or finished (slot released). -/
inductive WorkerPhase
  | waiting
  | critical
  | done
deriving DecidableEq

/-- Global scheduler state: who holds `JOB_LOCK`, and each thread's phase. -/
structure SchedState (n : ℕ) where
  lockHeld : Option (Fin n)
  phase : Fin n → WorkerPhase

/-- All `K` worker threads spawned by `_enqueue_job_for_user`, none yet holding
the slot. -/
def initSched (n : ℕ) : SchedState n := ⟨none, fun _ => WorkerPhase.waiting⟩

/-- Interleaving semantics of the workers.  `acquire` is the atomic success of
`JOB_LOCK.acquire` inside `_wait_for_job_slot` (only possible when the lock is
free); `release` is `_release_job_slot()` run by the thread leaving its
critical section. -/
inductive SchedStep (n : ℕ) : SchedState n → SchedState n → Prop
  | acquire (s : SchedState n) (t : Fin n) :
      s.lockHeld = none → s.phase t = WorkerPhase.waiting →
      SchedStep n s ⟨some t, Function.update s.phase t WorkerPhase.critical⟩
  | release (s : SchedState n) (t : Fin n) :
      s.phase t = WorkerPhase.critical →
      SchedStep n s ⟨none, Function.update s.phase t WorkerPhase.done⟩

/-- States reachable from the initial state under any interleaving. -/
def SchedReachable (n : ℕ) (s : SchedState n) : Prop :=
  Relation.ReflTransGen (SchedStep n) (initSched n) s

/-! ## Concrete inputs for witnesses, scenarios and counterexamples -/

/-- A small one-segment corpus (no course markers: degrades to `GLOBAL`). -/
def tinyRaw : String := "hello world, this is a tiny corpus"

/-- Two-course raw stream for the segmenter scenario of claim C3:
`/courses/111` then later `/courses/222`, no done-sentinel. -/
def c3raw : String :=
  "Course home: https://canvas.example.edu/courses/111\nWelcome to course 111\nSyllabus text here\nNow visiting https://canvas.example.edu/courses/222\nAssignments for 222"

/-- A line opening course 1 by url. -/
def c2lineA : String := "x http://a/courses/1"

/-- An explicit done-sentinel line closing course 1. -/
def c2lineB : String := "[log] [course done] 1"

/-- Repetition of the two-line course, `n` times. -/
def c2lines : ℕ → List String
  | 0 => []
  | n + 1 => c2lineA :: c2lineB :: c2lines n

/-- A raw stream consisting of `n` repetitions of a two-line course: one line
opening course 1 by url, one explicit done-sentinel closing it.  Each
repetition yields one complete segment. -/
def c2raw : ℕ → String
  | 0 => ""
  | n + 1 => c2lineA ++ "\n" ++ c2lineB ++ "\n" ++ c2raw n

/-- The segment produced by each repetition of `c2raw`. -/
def c2seg : Segment :=
  ⟨"1", "course 1", "x http://a/courses/1\n[log] [course done] 1"⟩

/-- A backend response carrying three embedding vectors. -/
def respThree : EmbedResponse :=
  ⟨[⟨some [1]⟩, ⟨some [2]⟩, ⟨some [3]⟩]⟩

/-- The scheduler state after one worker (of one) acquires the slot. -/
def c9s1 : SchedState 1 :=
  ⟨some 0, Function.update (fun _ => WorkerPhase.waiting) 0 WorkerPhase.critical⟩

/-! # Theorems -/

/-! ## Tokenizer adapter lemmas -/

theorem toList_strTake (s : String) (n : ℕ) : (strTake s n).toList = s.toList.take n := rfl

theorem strLen_strTake (s : String) (n : ℕ) : strLen (strTake s n) = min n (strLen s) := by
  simp [strLen, strTake, List.length_take, String.toList]

theorem one_le_estimate (s model : String) : 1 ≤ estimate_tokens s model :=
  le_max_left 1 _

theorem estimate_strTake (s model : String) (n : ℕ) :
    estimate_tokens (strTake s n) model = max 1 (min n (strLen s) / 4) := by
  simp [estimate_tokens, strLen_strTake]

theorem estimate_strTake_mono (s model : String) {a b : ℕ} (h : a ≤ b) :
    estimate_tokens (strTake s a) model ≤ estimate_tokens (strTake s b) model := by
  rw [estimate_strTake, estimate_strTake]
  exact max_le_max le_rfl (Nat.div_le_div_right (min_le_min_right _ h))

theorem strTake_full (s : String) : strTake s (strLen s) = s := by
  cases s with
  | mk data => simp [strTake, strLen, String.toList]

/-- Invariant-based characterization of the binary-search loop: assuming the
loop invariants, the result is a prefix of `text` within budget (or `""`), and
no prefix within budget is longer. -/
theorem truncLoop_post (mt : ℕ) (model text : String) :
    ∀ (fuel : ℕ) (lo hi : Int) (best : String),
    (hi + 1 - lo).toNat ≤ fuel →
    0 ≤ lo → hi ≤ (strLen text : Int) →
    (best = "" ∨ (best = strTake text (strLen best) ∧ estimate_tokens best model ≤ mt)) →
    ((strLen best : Int) ≤ lo) →
    (∀ m : ℕ, m ≤ strLen text → estimate_tokens (strTake text m) model ≤ mt →
      ((lo ≤ (m : Int) ∧ (m : Int) ≤ hi) ∨ m ≤ strLen best)) →
    (truncLoop mt model text lo hi best = "" ∨
      (truncLoop mt model text lo hi best =
        strTake text (strLen (truncLoop mt model text lo hi best)) ∧
       estimate_tokens (truncLoop mt model text lo hi best) model ≤ mt)) ∧
    (∀ m : ℕ, m ≤ strLen text → estimate_tokens (strTake text m) model ≤ mt →
      m ≤ strLen (truncLoop mt model text lo hi best)) := by
  intro fuel
  induction fuel with
  | zero =>
    intro lo hi best hfuel _hlo _hhi hbest _hbl hcover
    have hexit : ¬ lo ≤ hi := by omega
    rw [truncLoop, dif_neg hexit]
    refine ⟨hbest, fun m hm hgood => ?_⟩
    rcases hcover m hm hgood with ⟨h1, h2⟩ | h
    · omega
    · exact h
  | succ fuel ih =>
    intro lo hi best hfuel hlo hhi hbest hbl hcover
    by_cases hle : lo ≤ hi
    · rw [truncLoop, dif_pos hle]
      have hmid1 : lo ≤ (lo + hi) / 2 := by omega
      have hmid2 : (lo + hi) / 2 ≤ hi := by omega
      have hmidlen : ((lo + hi) / 2).toNat ≤ strLen text := by omega
      have hclen : strLen (strTake text ((lo + hi) / 2).toNat) = ((lo + hi) / 2).toNat := by
        rw [strLen_strTake]; omega
      by_cases hP : estimate_tokens (strTake text ((lo + hi) / 2).toNat) model ≤ mt
      · rw [if_pos hP]
        refine ih ((lo + hi) / 2 + 1) hi (strTake text ((lo + hi) / 2).toNat)
          (by omega) (by omega) hhi ?_ (by rw [hclen]; omega) ?_
        · right
          exact ⟨by rw [hclen], hP⟩
        · intro m hm hgood
          rcases hcover m hm hgood with ⟨h1, h2⟩ | h
          · by_cases hsplit : (lo + hi) / 2 + 1 ≤ (m : Int)
            · exact Or.inl ⟨hsplit, h2⟩
            · exact Or.inr (by rw [hclen]; omega)
          · exact Or.inr (by rw [hclen]; omega)
      · rw [if_neg hP]
        refine ih lo ((lo + hi) / 2 - 1) best (by omega) hlo (by omega) hbest hbl ?_
        intro m hm hgood
        rcases hcover m hm hgood with ⟨h1, h2⟩ | h
        · left
          refine ⟨h1, ?_⟩
          by_contra hcon
          have hge : ((lo + hi) / 2).toNat ≤ m := by omega
          exact hP (le_trans (estimate_strTake_mono text model hge) hgood)
        · exact Or.inr h
    · rw [truncLoop, dif_neg hle]
      refine ⟨hbest, fun m hm hgood => ?_⟩
      rcases hcover m hm hgood with ⟨h1, h2⟩ | h
      · omega
      · exact h

/-- Full characterization of `truncate_to_tokens`: the result is a prefix of
`text`; it is within the token budget unless it is empty; and it is at least as
long as any prefix whose estimate fits the budget. -/
theorem truncate_spec (text : String) (mt : ℕ) (model : String) :
    (truncate_to_tokens text mt model = "" ∨
      (truncate_to_tokens text mt model =
        strTake text (strLen (truncate_to_tokens text mt model)) ∧
       estimate_tokens (truncate_to_tokens text mt model) model ≤ mt)) ∧
    (∀ m : ℕ, m ≤ strLen text → estimate_tokens (strTake text m) model ≤ mt →
      m ≤ strLen (truncate_to_tokens text mt model)) := by
  unfold truncate_to_tokens
  by_cases h : estimate_tokens text model ≤ mt
  · rw [if_pos h]
    constructor
    · right
      exact ⟨(strTake_full text).symm ▸ rfl, h⟩
    · intro m hm _
      exact hm
  · rw [if_neg h]
    refine truncLoop_post mt model text (strLen text + 1) 0 (strLen text) ""
      (by omega) (by omega) (by omega) (Or.inl rfl) ?_ ?_
    · have : strLen "" = 0 := by decide
      omega
    · intro m hm _
      exact Or.inl (by omega)

theorem strTake_empty (n : ℕ) : strTake "" n = "" := by
  have h : ("" : String).toList = [] := by decide
  simp [strTake, h]

theorem strTake_zero (s : String) : strTake s 0 = "" := rfl

/-- C5: for every text, non-negative token budget and model (under the fallback
codec, the only tokenizer defined in the repository), `truncate_to_tokens`
returns the longest prefix of `text` whose estimated token count is at most
`max_tokens`: the result is a prefix, every prefix fitting the budget is no
longer, the result itself fits the budget unless it is empty (which happens
exactly when not even the empty string fits, i.e. budget 0), and a budget of 0
yields the empty string.  The function is total (never raises) by
construction. -/
theorem C5_truncate_longest_fit (text model : String) (mt : ℕ) :
    (truncate_to_tokens text mt model =
      strTake text (strLen (truncate_to_tokens text mt model))) ∧
    (∀ m : ℕ, m ≤ strLen text → estimate_tokens (strTake text m) model ≤ mt →
      m ≤ strLen (truncate_to_tokens text mt model)) ∧
    (estimate_tokens (truncate_to_tokens text mt model) model ≤ mt ∨
      truncate_to_tokens text mt model = "") ∧
    (mt = 0 → truncate_to_tokens text mt model = "") := by
  obtain ⟨h1, h2⟩ := truncate_spec text mt model
  refine ⟨?_, h2, ?_, ?_⟩
  · rcases h1 with he | ⟨hp, _⟩
    · rw [he, show strLen "" = 0 from by decide, strTake_zero text]
    · exact hp
  · rcases h1 with he | ⟨_, hle⟩
    · exact Or.inr he
    · exact Or.inl hle
  · intro h0
    rcases h1 with he | ⟨_, hle⟩
    · exact he
    · have := one_le_estimate (truncate_to_tokens text mt model) model
      omega

/-- Witness for C5 at `text = "abcdefgh"`, budget 1: the 7-character prefix
has estimate 1 ≤ 1, so the result is at least 7 characters long. -/
theorem C5_truncate_longest_fit_witness :
    7 ≤ strLen (truncate_to_tokens "abcdefgh" 1 "m") :=
  (C5_truncate_longest_fit "abcdefgh" "m" 1).2.1 7 (by decide) (by decide)

/-- C6: `truncate_to_tokens` is idempotent: truncating an already-truncated
text under the same budget and model returns it unchanged. -/
theorem C6_truncate_idempotent (text model : String) (mt : ℕ) :
    truncate_to_tokens (truncate_to_tokens text mt model) mt model =
      truncate_to_tokens text mt model := by
  rcases (truncate_spec text mt model).1 with hempty | ⟨_, hle⟩
  · rw [hempty]
    rcases (truncate_spec "" mt model).1 with h | ⟨hpref, _⟩
    · exact h
    · rw [hpref, strTake_empty]
  · rw [truncate_to_tokens, if_pos hle]

/-- C10: under the fallback heuristic, `estimate_tokens` returns at least 1
for every string (including the empty string), and consequently for a
non-empty text any positive token budget admits a non-empty prefix within the
budget (the 1-character prefix already fits). -/
theorem C10_estimate_at_least_one (s model : String) :
    1 ≤ estimate_tokens s model ∧
    (s ≠ "" → ∀ mt : ℕ, 1 ≤ mt →
      1 ≤ strLen s ∧ estimate_tokens (strTake s 1) model ≤ mt) := by
  refine ⟨one_le_estimate s model, fun hne mt hmt => ⟨?_, ?_⟩⟩
  · cases s with
    | mk data =>
      cases data with
      | nil => exact absurd (by decide) hne
      | cons c cs => simp [strLen, String.toList]
  · rw [estimate_strTake]
    have h4 : min 1 (strLen s) / 4 = 0 := by omega
    omega

/-- Witness for C10 at `s = "ab"`, budget 1. -/
theorem C10_estimate_at_least_one_witness :
    1 ≤ strLen "ab" ∧ estimate_tokens (strTake "ab" 1) "m" ≤ 1 :=
  (C10_estimate_at_least_one "ab" "m").2 (by decide) 1 le_rfl

/-! ## Course segmenter theorems -/

theorem stepNameP_none (st : SplitState) (line : String)
    (h : findName line.toList = none) : stepNameP st line = st := by
  unfold stepNameP
  rw [h]

theorem stepUrlP_none (st : SplitState) (line : String)
    (h : findCourseId line.toList = none) : stepUrlP st line = st := by
  unfold stepUrlP
  rw [h]

theorem stepUrlP_switch (st : SplitState) (line : String) (c cid : String)
    (h : findCourseId line.toList = some cid) (hc : st.cur_id = some c)
    (hne : cid ≠ c) (hbuf : st.buf ≠ []) :
    stepUrlP st line =
      ⟨some cid, st.cur_name, [],
        st.parts ++ [⟨c, nameOr st.cur_name c, pyStrip (joinLines st.buf)⟩]⟩ := by
  unfold stepUrlP
  rw [h, hc]
  dsimp only
  rw [if_pos hne, if_pos hbuf]

theorem stepUrlP_open (st : SplitState) (line : String) (cid : String)
    (h : findCourseId line.toList = some cid) (hc : st.cur_id = none) :
    stepUrlP st line = { st with cur_id := some cid } := by
  unfold stepUrlP
  rw [h, hc]

theorem stepAppendP_eq (st : SplitState) (line : String) :
    stepAppendP st line = ⟨st.cur_id, st.cur_name, st.buf ++ [line], st.parts⟩ := rfl

theorem stepDoneP_nomatch (st : SplitState) (line : String)
    (h : findDone line.toList = none) : stepDoneP st line = st := by
  unfold stepDoneP
  rw [h]

theorem stepDoneP_other (st : SplitState) (line : String) (d : String)
    (h : findDone line.toList = some d) (hne : st.cur_id ≠ some d) :
    stepDoneP st line = st := by
  unfold stepDoneP
  rw [h]
  cases hcur : st.cur_id with
  | none => rfl
  | some c =>
    have hdc : d ≠ c := by
      intro hdc
      exact hne (by rw [hcur, hdc])
    dsimp only
    rw [if_neg hdc]

theorem stepDoneP_hit (st : SplitState) (line : String) (c : String)
    (h : findDone line.toList = some c) (hc : st.cur_id = some c) :
    stepDoneP st line =
      ⟨none, none, [],
        st.parts ++ [⟨c, nameOr st.cur_name c, pyStrip (joinLines st.buf)⟩]⟩ := by
  unfold stepDoneP
  rw [h, hc]
  dsimp only
  rw [if_pos rfl]

/-- C3: in `_split_stream_by_course`, a line carrying a course url with an id
different from the currently open course flushes the accumulated buffer as a
completed segment under the previous id and name *before* the line is appended
to the new segment (general step property, for a boundary line with no label
capture and no done-sentinel); in particular the two-course raw stream
(`/courses/111` then `/courses/222`, no done-sentinel) yields exactly two
segments, the first holding only the lines strictly before the first
`/courses/222` line and the second the rest. -/
theorem C3_course_switch_flushes_before_append :
    (∀ (st : SplitState) (line : String) (c cid : String),
      st.cur_id = some c → st.buf ≠ [] →
      findName line.toList = none → findCourseId line.toList = some cid → cid ≠ c →
      findDone line.toList = none →
      splitStep st line =
        ⟨some cid, st.cur_name, [line],
          st.parts ++ [⟨c, nameOr st.cur_name c, pyStrip (joinLines st.buf)⟩]⟩) ∧
    _split_stream_by_course c3raw =
      [⟨"111", "course 111",
        "Course home: https://canvas.example.edu/courses/111\nWelcome to course 111\nSyllabus text here"⟩,
       ⟨"222", "GLOBAL",
        "Now visiting https://canvas.example.edu/courses/222\nAssignments for 222"⟩] := by
  constructor
  · intro st line c cid hc hbuf hname hurl hne hdone
    unfold splitStep
    rw [stepNameP_none st line hname, stepUrlP_switch st line c cid hurl hc hne hbuf,
      stepAppendP_eq]
    dsimp only
    rw [stepDoneP_nomatch _ line hdone]
    simp
  · set_option maxRecDepth 100000 in decide

/-- Witness for the general part of C3 at a concrete state and boundary line. -/
theorem C3_course_switch_flushes_before_append_witness :
    splitStep ⟨some "111", none, ["intro"], []⟩ "see https://e/courses/222 ok" =
      ⟨some "222", none, ["see https://e/courses/222 ok"], [⟨"111", "course 111", "intro"⟩]⟩ :=
  (C3_course_switch_flushes_before_append.1 ⟨some "111", none, ["intro"], []⟩
    "see https://e/courses/222 ok" "111" "222" rfl (by decide) (by decide) (by decide)
    (by decide) (by decide)).trans (by decide)

/-- C4: a `[log] [course done] <id>` sentinel whose id equals the currently
open course closes the segment immediately — the sentinel line itself is
included, because lines are appended before the done-check — and resets
`cur_id`/`cur_name` to empty (first part, for a sentinel line with no label and
no url); a done-sentinel for any other id (or with no open course) leaves the
state produced by the earlier phases untouched (second and third parts). -/
theorem C4_done_sentinel_closes_current :
    (∀ (st : SplitState) (line : String) (c : String),
      findName line.toList = none → findCourseId line.toList = none →
      findDone line.toList = some c → st.cur_id = some c →
      splitStep st line =
        ⟨none, none, [],
          st.parts ++ [⟨c, nameOr st.cur_name c, pyStrip (joinLines (st.buf ++ [line]))⟩]⟩) ∧
    (∀ (st : SplitState) (line : String) (d : String),
      findDone line.toList = some d → st.cur_id ≠ some d →
      stepDoneP st line = st) ∧
    (∀ (st : SplitState) (line : String),
      findDone line.toList = none → stepDoneP st line = st) := by
  refine ⟨?_, ?_, ?_⟩
  · intro st line c hname hurl hdone hc
    unfold splitStep
    rw [stepNameP_none st line hname, stepUrlP_none st line hurl, stepAppendP_eq,
      stepDoneP_hit ⟨st.cur_id, st.cur_name, st.buf ++ [line], st.parts⟩ line c hdone hc]
  · intro st line d hdone hne
    exact stepDoneP_other st line d hdone hne
  · intro st line hdone
    exact stepDoneP_nomatch st line hdone

/-- Witness for the first part of C4 at a concrete state and sentinel line. -/
theorem C4_done_sentinel_closes_current_witness :
    splitStep ⟨some "111", some "Algebra", ["a"], []⟩ "[log] [course done] 111" =
      ⟨none, none, [], [⟨"111", "Algebra", "a\n[log] [course done] 111"⟩]⟩ :=
  (C4_done_sentinel_closes_current.1 ⟨some "111", some "Algebra", ["a"], []⟩
    "[log] [course done] 111" "111" (by decide) (by decide) (by decide) rfl).trans (by decide)

/-! ## Block compressor theorems -/

theorem sliceEvery_nil (k : ℕ) : sliceEvery k ([] : List α) = [] := by
  unfold sliceEvery
  rw [List.length_nil]
  have h : (0 + k - 1) / k = 0 := by
    cases k with
    | zero => rfl
    | succ m => exact Nat.div_eq_of_lt (by omega)
  rw [h]
  rfl

theorem sliceEvery_cons (k : ℕ) (hk : 0 < k) (l : List α) (hl : l ≠ []) :
    sliceEvery k l = l.take k :: sliceEvery k (l.drop k) := by
  have hpos : 0 < l.length := List.length_pos.mpr hl
  unfold sliceEvery
  have h1 : l.length + k - 1 = (l.length - 1) + k := by omega
  rw [h1, Nat.add_div_right _ hk, List.range_succ_eq_map, List.map_cons]
  congr 1
  · simp
  · rw [List.map_map]
    have hc : ((l.drop k).length + k - 1) / k = (l.length - 1) / k := by
      rw [List.length_drop]
      rcases le_or_lt l.length k with hle | hlt
      · have h0 : l.length - k = 0 := by omega
        rw [h0, Nat.div_eq_of_lt (by omega), Nat.div_eq_of_lt (by omega)]
      · have h2 : l.length - k + k - 1 = (l.length - k - 1) + k := by omega
        have h3 : l.length - 1 = (l.length - k - 1) + k := by omega
        rw [h2, Nat.add_div_right _ hk, h3, Nat.add_div_right _ hk]
    rw [hc]
    refine List.map_congr_left (fun i _ => ?_)
    simp only [Function.comp_apply, List.drop_drop]
    congr 2
    rw [Nat.succ_mul]
    omega

theorem sliceEvery_flatten (k : ℕ) (hk : 0 < k) (l : List α) :
    (sliceEvery k l).flatten = l := by
  by_cases hl : l = []
  · subst hl
    rw [sliceEvery_nil]
    rfl
  · rw [sliceEvery_cons k hk l hl, List.flatten_cons, sliceEvery_flatten k hk (l.drop k),
      List.take_append_drop]
termination_by l.length
decreasing_by
  have _hpos : 0 < l.length := List.length_pos.mpr hl
  rw [List.length_drop]
  omega

theorem sliceEvery_length_sum (k : ℕ) (hk : 0 < k) (l : List α) :
    ((sliceEvery k l).map List.length).sum = l.length := by
  by_cases hl : l = []
  · subst hl
    rw [sliceEvery_nil]
    rfl
  · have hpos : 0 < l.length := List.length_pos.mpr hl
    rw [sliceEvery_cons k hk l hl, List.map_cons, List.sum_cons,
      sliceEvery_length_sum k hk (l.drop k), List.length_take, List.length_drop]
    omega
termination_by l.length
decreasing_by
  have _hpos : 0 < l.length := List.length_pos.mpr hl
  rw [List.length_drop]
  omega

theorem mem_sliceEvery (k : ℕ) (hk : 0 < k) (l : List α) (c : List α)
    (hc : c ∈ sliceEvery k l) :
    c ≠ [] ∧ c.length ≤ k ∧ ∀ x ∈ c, x ∈ l := by
  by_cases hl : l = []
  · subst hl
    rw [sliceEvery_nil] at hc
    exact absurd hc (List.not_mem_nil c)
  · have hpos : 0 < l.length := List.length_pos.mpr hl
    rw [sliceEvery_cons k hk l hl] at hc
    rcases List.mem_cons.mp hc with rfl | hmem
    · refine ⟨?_, ?_, fun x hx => List.mem_of_mem_take hx⟩
      · have : (l.take k).length = min k l.length := List.length_take k l
        intro hemp
        rw [hemp] at this
        simp at this
        omega
      · rw [List.length_take]
        omega
    · obtain ⟨h1, h2, h3⟩ := mem_sliceEvery k hk (l.drop k) c hmem
      exact ⟨h1, h2, fun x hx => List.mem_of_mem_drop (h3 x hx)⟩
termination_by l.length
decreasing_by
  have _hpos : 0 < l.length := List.length_pos.mpr hl
  rw [List.length_drop]
  omega

theorem mem_blockEventsOfSeg {bt : ℕ} {r : ℚ} {t : String} {e : BlockEvent}
    (he : e ∈ blockEventsOfSeg bt r t) : e.budget = blockBudget e.inEst r := by
  obtain ⟨blk, _, hblk⟩ := List.mem_filterMap.mp he
  split at hblk
  · exact absurd hblk (by simp)
  · cases hblk
    rfl

theorem mem_stream_events {raw : String} {bt : ℕ} {e : BlockEvent}
    (he : e ∈ stream_compress_events raw bt) :
    e.budget =
      blockBudget e.inEst (target_ratio_global (totalTokensOf (_split_stream_by_course raw))) := by
  unfold stream_compress_events at he
  split at he
  · exact absurd he (by simp)
  · obtain ⟨l, hl, hel⟩ := List.mem_flatten.mp he
    obtain ⟨s, _, rfl⟩ := List.mem_map.mp hl
    exact mem_blockEventsOfSeg hel

/-- The estimated input token count of a block is at most its number of
tokens: every fallback token has at most 4 characters, so the decoded block
text has at most `4 * blk.length` characters, and the block is non-empty. -/
theorem block_inEst_le (bt : ℕ) (hbt : 0 < bt) (t model : String)
    (blk : List (List Char)) (hblk : blk ∈ blocksOfToks bt (encode_text t)) :
    estimate_tokens (decode_tokens blk) model ≤ blk.length := by
  obtain ⟨hne, _, hsub⟩ := mem_sliceEvery bt hbt (encode_text t) blk hblk
  have hlen1 : 1 ≤ blk.length := List.length_pos.mpr hne
  have htok : ∀ x ∈ blk.map List.length, x ≤ 4 := by
    intro x hx
    obtain ⟨tok, htokmem, rfl⟩ := List.mem_map.mp hx
    exact (mem_sliceEvery 4 (by norm_num) t.toList tok (hsub tok htokmem)).2.1
  have hchars : blk.flatten.length ≤ blk.length * 4 := by
    rw [List.length_flatten]
    calc (blk.map List.length).sum ≤ (blk.map List.length).length • 4 :=
          List.sum_le_card_nsmul _ 4 htok
      _ = blk.length * 4 := by rw [List.length_map, smul_eq_mul]
  have hdiv : blk.flatten.length / 4 ≤ blk.length := by
    calc blk.flatten.length / 4 ≤ blk.length * 4 / 4 := Nat.div_le_div_right hchars
      _ = blk.length := Nat.mul_div_cancel _ (by norm_num)
  have hstr : strLen (decode_tokens blk) = blk.flatten.length := rfl
  unfold estimate_tokens
  rw [hstr]
  omega

/-- Sum of the recorded `inEst` values over the filterMap is bounded by the sum
of the per-block bound. -/
theorem sum_filterMap_inEst_le (l : List (List (List Char))) (f : List (List Char) → Option BlockEvent)
    (g : List (List Char) → ℕ)
    (h : ∀ a ∈ l, ∀ e, f a = some e → e.inEst ≤ g a) :
    ((l.filterMap f).map BlockEvent.inEst).sum ≤ (l.map g).sum := by
  induction l with
  | nil => simp
  | cons a l ih =>
    rw [List.filterMap_cons, List.map_cons, List.sum_cons]
    have hrest := ih (fun b hb e he => h b (List.mem_cons_of_mem a hb) e he)
    cases hfa : f a with
    | none => exact le_trans hrest (Nat.le_add_left _ _)
    | some e =>
      rw [List.map_cons, List.sum_cons]
      exact Nat.add_le_add (h a (List.mem_cons_self a l) e hfa) hrest

theorem blockEvents_inEst_sum (bt : ℕ) (hbt : 0 < bt) (r : ℚ) (t : String) :
    ((blockEventsOfSeg bt r t).map BlockEvent.inEst).sum ≤ (encode_text t).length := by
  unfold blockEventsOfSeg
  refine le_trans (sum_filterMap_inEst_le _ _ List.length ?_) ?_
  · intro blk hmem e hfe
    split at hfe
    · exact absurd hfe (by simp)
    · cases hfe
      exact block_inEst_le bt hbt t COMPRESSION_MODEL blk hmem
  · exact le_of_eq (sliceEvery_length_sum bt hbt _)

theorem events_inEst_sum (raw : String) (bt : ℕ) (hbt : 0 < bt) :
    ((stream_compress_events raw bt).map BlockEvent.inEst).sum ≤
      totalTokensOf (_split_stream_by_course raw) := by
  unfold stream_compress_events
  split
  · simp
  · rw [List.map_flatten, List.sum_flatten, List.map_map, List.map_map]
    unfold totalTokensOf
    refine List.sum_le_sum (fun s _ => ?_)
    exact blockEvents_inEst_sum bt hbt _ s.text

theorem target_ratio_nonneg (total : ℕ) : 0 ≤ target_ratio_global total := by
  unfold target_ratio_global
  exact le_min (by norm_num) (by positivity)

theorem ratio_mul_total_le (total : ℕ) (h : 0 < total) :
    target_ratio_global total * (total : ℚ) ≤ 126000 := by
  unfold target_ratio_global
  have h1 : min 1 (126000 / (total : ℚ)) ≤ 126000 / (total : ℚ) := min_le_right _ _
  have h2 : (0 : ℚ) ≤ (total : ℚ) := by positivity
  calc min 1 (126000 / (total : ℚ)) * (total : ℚ)
      ≤ (126000 / (total : ℚ)) * (total : ℚ) := mul_le_mul_of_nonneg_right h1 h2
    _ = 126000 := div_mul_cancel₀ _ (by exact_mod_cast h.ne')

/-- Each block's budget is at most `512 + inEst * r` over `ℚ`. -/
theorem blockBudget_le (inEst : ℕ) (r : ℚ) (hr : 0 ≤ r) :
    (blockBudget inEst r : ℚ) ≤ 512 + (inEst : ℚ) * r := by
  have hq : (0 : ℚ) ≤ (inEst : ℚ) * r := mul_nonneg (by positivity) hr
  have hfloor : (0 : ℤ) ≤ ⌊(inEst : ℚ) * r⌋ := Int.floor_nonneg.mpr hq
  have hnat : blockBudget inEst r ≤ 512 + Int.toNat ⌊(inEst : ℚ) * r⌋ := by
    unfold blockBudget MODEL_MAX_OUT
    exact le_trans (min_le_right _ _) (max_le (by omega) (by omega))
  calc (blockBudget inEst r : ℚ) ≤ ((512 + Int.toNat ⌊(inEst : ℚ) * r⌋ : ℕ) : ℚ) := by
        exact_mod_cast hnat
    _ = 512 + ((Int.toNat ⌊(inEst : ℚ) * r⌋ : ℤ) : ℚ) := by push_cast; ring
    _ = 512 + ((⌊(inEst : ℚ) * r⌋ : ℤ) : ℚ) := by rw [Int.toNat_of_nonneg hfloor]
    _ ≤ 512 + (inEst : ℚ) * r := by
        have := Int.floor_le ((inEst : ℚ) * r)
        linarith

theorem sum_map_add_q (l : List BlockEvent) (f g : BlockEvent → ℚ) :
    (l.map (fun e => f e + g e)).sum = (l.map f).sum + (l.map g).sum := by
  induction l with
  | nil => simp
  | cons a l ih => simp [ih]; ring

/-- C2 (amended): assuming each summarization call returns at most its
requested `max_tokens`, the total estimated size of the compressed output is at
most `C + 512 * B` where `C = 126000` and `B` is the number of issued blocks:
the global-ratio part of every budget sums to at most `C`, but each block
additionally enjoys the hard-coded output floor of 512 tokens, so the true
bound grows with the block count and is *not* `C * (1 + ε)` for a small fixed
ε. -/
theorem C2_output_sum_bound (raw : String) (bt : ℕ) (outs : List ℕ)
    (hbt : 0 < bt)
    (houts : List.Forall₂ (· ≤ ·) outs ((stream_compress_events raw bt).map BlockEvent.budget)) :
    outs.sum ≤ 126000 + 512 * (stream_compress_events raw bt).length := by
  set evs := stream_compress_events raw bt with hevs
  set total := totalTokensOf (_split_stream_by_course raw) with htotal
  by_cases h0 : total = 0
  · have hemp : evs = [] := by
      rw [hevs]
      unfold stream_compress_events
      rw [← htotal, if_pos h0]
    rw [hemp] at houts
    simp only [List.map_nil] at houts
    rw [List.forall₂_nil_right_iff.mp houts]
    simp
  · have hr0 : 0 ≤ target_ratio_global total := target_ratio_nonneg total
    have hstep1 : outs.sum ≤ (evs.map BlockEvent.budget).sum := houts.sum_le_sum
    have hbudget : ∀ e ∈ evs, (e.budget : ℚ) ≤ 512 + (e.inEst : ℚ) * target_ratio_global total := by
      intro e he
      have := @mem_stream_events raw bt e (by rw [← hevs]; exact he)
      rw [← htotal] at this
      rw [this]
      exact blockBudget_le e.inEst _ hr0
    have hq1 : ((evs.map BlockEvent.budget).sum : ℚ) ≤
        512 * evs.length + ((evs.map BlockEvent.inEst).sum : ℚ) * target_ratio_global total := by
      rw [Nat.cast_list_sum, List.map_map]
      calc ((evs.map fun e => ((e.budget : ℕ) : ℚ)).sum)
          ≤ (evs.map (fun e => 512 + (e.inEst : ℚ) * target_ratio_global total)).sum := by
            refine List.sum_le_sum (fun e he => ?_)
            exact hbudget e he
        _ = (evs.map (fun _ => (512 : ℚ))).sum +
            (evs.map (fun e => (e.inEst : ℚ) * target_ratio_global total)).sum := by
            rw [← sum_map_add_q]
        _ = 512 * evs.length + ((evs.map BlockEvent.inEst).sum : ℚ) * target_ratio_global total := by
            congr 1
            · rw [List.map_const', List.sum_replicate, nsmul_eq_mul]
              ring
            · rw [Nat.cast_list_sum, List.map_map, ← List.sum_map_mul_right]
              rfl
    have hq2 : ((evs.map BlockEvent.inEst).sum : ℚ) * target_ratio_global total ≤ 126000 := by
      have hle : ((evs.map BlockEvent.inEst).sum : ℚ) ≤ (total : ℚ) := by
        exact_mod_cast (hevs ▸ events_inEst_sum raw bt hbt).trans (le_of_eq htotal.symm)
      calc ((evs.map BlockEvent.inEst).sum : ℚ) * target_ratio_global total
          ≤ (total : ℚ) * target_ratio_global total := mul_le_mul_of_nonneg_right hle hr0
        _ = target_ratio_global total * (total : ℚ) := mul_comm _ _
        _ ≤ 126000 := ratio_mul_total_le total (Nat.pos_of_ne_zero h0)
    have hq : (outs.sum : ℚ) ≤ 126000 + 512 * evs.length := by
      have hc1 : (outs.sum : ℚ) ≤ ((evs.map BlockEvent.budget).sum : ℚ) := by
        exact_mod_cast hstep1
      linarith
    exact_mod_cast hq

/-- C1 (amended): in `stream_compress_corpus_blocks` the global target ratio
`min(1.0, 126000 / total_tokens)` is computed exactly once per job from the sum
of all course segments' token counts, and every issued summarization call's
output budget equals `min(MODEL_MAX_OUT, max(512, floor(block_input_tokens *
target_ratio)))` at that shared ratio — `int()` truncation, not `round`. -/
theorem C1_block_budget_formula (raw : String) (bt : ℕ) (e : BlockEvent)
    (he : e ∈ stream_compress_events raw bt) :
    e.budget = min MODEL_MAX_OUT (max 512 (Int.toNat
      ⌊(e.inEst : ℚ) * target_ratio_global (totalTokensOf (_split_stream_by_course raw))⌋)) :=
  mem_stream_events he

theorem target_ratio_global_eq_one {total : ℕ} (h1 : 0 < total) (h2 : total ≤ 126000) :
    target_ratio_global total = 1 := by
  unfold target_ratio_global
  rw [min_eq_left]
  rw [le_div_iff₀ (by exact_mod_cast h1)]
  exact_mod_cast by omega

theorem blockBudget_ratio_one (inEst : ℕ) {r : ℚ} (hr : r = 1) :
    blockBudget inEst r = min 16384 (max 512 inEst) := by
  subst hr
  unfold blockBudget MODEL_MAX_OUT
  simp

theorem segs_tinyRaw : _split_stream_by_course tinyRaw = [⟨"GLOBAL", "GLOBAL", tinyRaw⟩] := by
  decide

theorem events_tinyRaw : stream_compress_events tinyRaw 20000 = [⟨8, 512⟩] := by
  unfold stream_compress_events
  rw [segs_tinyRaw]
  rw [show totalTokensOf [⟨"GLOBAL", "GLOBAL", tinyRaw⟩] = 9 from by decide]
  rw [if_neg (by norm_num)]
  simp only [List.map_cons, List.map_nil, List.flatten_cons, List.flatten_nil, List.append_nil]
  unfold blockEventsOfSeg
  rw [show blocksOfToks 20000 (encode_text tinyRaw) = [encode_text tinyRaw] from by decide]
  simp only [List.filterMap_cons, List.filterMap_nil]
  rw [if_neg (by decide)]
  rw [show estimate_tokens (decode_tokens (encode_text tinyRaw)) COMPRESSION_MODEL = 8 from by decide]
  rw [blockBudget_ratio_one 8 (target_ratio_global_eq_one (by norm_num) (by norm_num))]
  rw [max_eq_left (by norm_num : (8:ℕ) ≤ 512), min_eq_right (by norm_num : (512:ℕ) ≤ 16384)]

/-- Witness for C1 (amended) at the single block of `tinyRaw`. -/
theorem C1_block_budget_formula_witness :
    (⟨8, 512⟩ : BlockEvent).budget = min MODEL_MAX_OUT (max 512 (Int.toNat
      ⌊((⟨8, 512⟩ : BlockEvent).inEst : ℚ) *
        target_ratio_global (totalTokensOf (_split_stream_by_course tinyRaw))⌋)) :=
  C1_block_budget_formula tinyRaw 20000 ⟨8, 512⟩ (by rw [events_tinyRaw]; exact List.mem_singleton.mpr rfl)

/-- C1 counterexample: the claim's budget formula uses `round`, but the code's
`int()` truncates.  At a job total of 252000 tokens the global ratio is exactly
1/2, and a block estimated at 1027 input tokens gets budget
`⌊513.5⌋ = 513` from the code while the claimed formula gives
`round(513.5) = 514`. -/
theorem C1_round_vs_floor_counterexample :
    blockBudget 1027 (target_ratio_global 252000) ≠
      specRoundBudget 1027 (target_ratio_global 252000) := by
  have hr : target_ratio_global 252000 = 1/2 := by
    unfold target_ratio_global
    rw [show (126000 : ℚ) / ((252000 : ℕ) : ℚ) = 1/2 from by norm_num]
    rw [min_eq_right (by norm_num : (1:ℚ)/2 ≤ 1)]
  rw [hr]
  unfold blockBudget specRoundBudget MODEL_MAX_OUT
  push_cast
  rw [show (⌊(1027:ℚ) * (1/2)⌋ : ℤ) = 513 from by rw [Int.floor_eq_iff]; constructor <;> norm_num]
  rw [show round ((1027:ℚ) * (1/2)) = 514 from by
    rw [round_eq, show (1027:ℚ) * (1/2) + 1/2 = ((514:ℤ):ℚ) from by norm_num, Int.floor_intCast]]
  decide

/-- Witness for C2 (amended) at the single block of `tinyRaw`, output 500 ≤
budget 512. -/
theorem C2_output_sum_bound_witness :
    ([500] : List ℕ).sum ≤ 126000 + 512 * (stream_compress_events tinyRaw 20000).length :=
  C2_output_sum_bound tinyRaw 20000 [500] (by norm_num)
    (by rw [events_tinyRaw]; exact List.Forall₂.cons (by norm_num) List.Forall₂.nil)

/-! ### The C2 counterexample corpus: 493 tiny courses -/

theorem splitNl_ne_nil (cs : List Char) : splitNl cs ≠ [] := by
  cases cs with
  | nil => simp [splitNl]
  | cons c rest =>
    unfold splitNl
    cases splitNl rest with
    | nil => simp
    | cons l ls =>
      by_cases hc : c = '\n' <;> simp [hc]

theorem splitNl_line_append (l : List Char) (h : '\n' ∉ l) (cs : List Char) :
    splitNl (l ++ '\n' :: cs) = l :: splitNl cs := by
  induction l with
  | nil =>
    simp only [List.nil_append]
    conv_lhs => rw [splitNl.eq_def]
    dsimp only
    cases hs : splitNl cs with
    | nil => exact absurd hs (splitNl_ne_nil cs)
    | cons a as => simp
  | cons c l ih =>
    have hc : c ≠ '\n' := fun h' => h (h' ▸ List.mem_cons_self c l)
    have hmem : '\n' ∉ l := fun hm => h (List.mem_cons_of_mem c hm)
    rw [List.cons_append]
    conv_lhs => rw [splitNl.eq_def]
    dsimp only
    rw [ih hmem]
    simp [hc]

theorem strToList_append (a b : String) : (a ++ b).toList = a.toList ++ b.toList := by
  cases a
  cases b
  rfl

theorem strMk_toList (s : String) : String.mk s.toList = s := by
  cases s
  rfl

theorem splitNl_c2raw (n : ℕ) :
    splitNl (c2raw n).toList = (c2lines n).map String.toList ++ [[]] := by
  induction n with
  | zero =>
    rw [show c2raw 0 = "" from rfl, show ("" : String).toList = [] from rfl]
    rfl
  | succ n ih =>
    have hdecomp : (c2raw (n + 1)).toList =
        c2lineA.toList ++ '\n' :: (c2lineB.toList ++ '\n' :: (c2raw n).toList) := by
      rw [show c2raw (n + 1) = c2lineA ++ "\n" ++ c2lineB ++ "\n" ++ c2raw n from rfl]
      rw [strToList_append, strToList_append, strToList_append, strToList_append]
      simp [show ("\n" : String).toList = ['\n'] from rfl]
    rw [hdecomp, splitNl_line_append _ (by decide) _, splitNl_line_append _ (by decide) _, ih]
    rfl

theorem splitLines_c2raw (n : ℕ) : splitLines (c2raw n) = c2lines n := by
  cases n with
  | zero => rfl
  | succ n =>
    unfold splitLines
    have hne : (c2raw (n + 1)).toList ≠ [] := by
      rw [show c2raw (n + 1) = c2lineA ++ "\n" ++ c2lineB ++ "\n" ++ c2raw n from rfl]
      rw [strToList_append]
      simp only [ne_eq, List.append_eq_nil]
      intro ⟨h1, _⟩
      rw [strToList_append, strToList_append, strToList_append] at h1
      simp at h1
    rw [if_neg (by simpa using hne)]
    dsimp only
    rw [splitNl_c2raw (n + 1), List.getLast?_concat]
    rw [if_pos rfl, List.dropLast_concat, List.map_map]
    have : String.mk ∘ String.toList = id := by
      funext s
      exact strMk_toList s
    rw [this, List.map_id]

theorem foldl_c2lines (n : ℕ) : ∀ p : List Segment,
    (c2lines n).foldl splitStep ⟨none, none, [], p⟩ =
      ⟨none, none, [], p ++ List.replicate n c2seg⟩ := by
  induction n with
  | zero => intro p; simp [c2lines]
  | succ n ih =>
    intro p
    rw [show c2lines (n + 1) = c2lineA :: c2lineB :: c2lines n from rfl]
    rw [List.foldl_cons, List.foldl_cons]
    have hstep1 : splitStep ⟨none, none, [], p⟩ c2lineA = ⟨some "1", none, [c2lineA], p⟩ := by
      unfold splitStep
      rw [stepNameP_none _ _ (by decide), stepUrlP_open _ _ "1" (by decide) rfl,
        stepAppendP_eq]
      dsimp only
      rw [List.nil_append, stepDoneP_nomatch _ _ (by decide)]
    have hstep2 : splitStep ⟨some "1", none, [c2lineA], p⟩ c2lineB =
        ⟨none, none, [], p ++ [c2seg]⟩ := by
      unfold splitStep
      rw [stepNameP_none _ _ (by decide), stepUrlP_none _ _ (by decide), stepAppendP_eq]
      dsimp only
      rw [stepDoneP_hit ⟨some "1", none, [c2lineA] ++ [c2lineB], p⟩ c2lineB "1" (by decide) rfl]
      rw [show (⟨"1", nameOr none "1", pyStrip (joinLines ([c2lineA] ++ [c2lineB]))⟩ : Segment) =
        c2seg from by decide]
    rw [hstep1, hstep2, ih (p ++ [c2seg]), List.append_assoc]
    rw [show [c2seg] ++ List.replicate n c2seg = List.replicate (n + 1) c2seg from by
      rw [List.replicate_succ]; rfl]

theorem split_c2raw (n : ℕ) :
    _split_stream_by_course (c2raw n) = List.replicate n c2seg := by
  unfold _split_stream_by_course
  rw [splitLines_c2raw n, foldl_c2lines n []]
  simp

theorem totalTokens_c2 (n : ℕ) : totalTokensOf (List.replicate n c2seg) = n * 11 := by
  unfold totalTokensOf
  rw [List.map_replicate, List.sum_replicate]
  rw [show (encode_text c2seg.text).length = 11 from by decide]
  rw [smul_eq_mul]

theorem flatten_replicate_singleton (n : ℕ) (x : α) :
    (List.replicate n [x]).flatten = List.replicate n x := by
  induction n with
  | zero => rfl
  | succ n ih => simp [List.replicate_succ, ih]

theorem blockEvents_c2seg :
    blockEventsOfSeg 20000 (target_ratio_global 5423) c2seg.text = [⟨10, 512⟩] := by
  unfold blockEventsOfSeg
  rw [show blocksOfToks 20000 (encode_text c2seg.text) = [encode_text c2seg.text] from by decide]
  simp only [List.filterMap_cons, List.filterMap_nil]
  rw [if_neg (by decide)]
  rw [show estimate_tokens (decode_tokens (encode_text c2seg.text)) COMPRESSION_MODEL = 10 from by
    decide]
  rw [blockBudget_ratio_one 10 (target_ratio_global_eq_one (by norm_num) (by norm_num))]
  rw [max_eq_left (by norm_num : (10:ℕ) ≤ 512), min_eq_right (by norm_num : (512:ℕ) ≤ 16384)]

theorem events_c2raw :
    stream_compress_events (c2raw 493) 20000 = List.replicate 493 ⟨10, 512⟩ := by
  unfold stream_compress_events
  rw [split_c2raw 493]
  rw [show totalTokensOf (List.replicate 493 c2seg) = 5423 from by
    rw [totalTokens_c2]]
  rw [if_neg (by norm_num)]
  rw [List.map_replicate, blockEvents_c2seg, flatten_replicate_singleton]

/-- C2 counterexample: a corpus of 493 tiny courses (5423 total tokens, well
under the cap, so the global ratio is 1) produces 493 blocks, each with the
hard-coded minimum budget of 512 output tokens.  Outputs that use exactly their
requested budgets — allowed by the claim's assumption — sum to
`493 * 512 = 252416 > 2 * 126000`, so the claimed bound `C * (1 + ε)` fails for
every tolerance `ε ≤ 1`, which no reading of "a small tolerance" survives. -/
theorem C2_corpus_cap_counterexample :
    List.Forall₂ (· ≤ ·) (List.replicate 493 (512 : ℕ))
      ((stream_compress_events (c2raw 493) 20000).map BlockEvent.budget) ∧
    2 * 126000 < (List.replicate 493 (512 : ℕ)).sum := by
  constructor
  · rw [events_c2raw, List.map_replicate]
    exact List.forall₂_same.mpr (fun x _ => le_refl x)
  · rw [List.sum_replicate, smul_eq_mul]
    norm_num

/-! ## Corpus indexer theorems -/

theorem openai_embed_error_iff (texts : List String) (resp : EmbedResponse) :
    (∃ msg, openai_embed texts resp = Except.error msg) ↔ resp.data.length ≠ texts.length := by
  unfold openai_embed
  simp only [List.length_map]
  by_cases h : resp.data.length ≠ texts.length
  · rw [if_pos h]
    exact iff_of_true ⟨_, rfl⟩ h
  · rw [if_neg h]
    exact iff_of_false (by rintro ⟨m, hm⟩; exact Except.noConfusion hm) h

theorem openai_embed_ok_length (texts : List String) (resp : EmbedResponse)
    (v : List (List ℚ)) (hv : openai_embed texts resp = Except.ok v) :
    v.length = texts.length := by
  unfold openai_embed at hv
  split at hv
  · exact absurd hv (by simp)
  · next h =>
    cases hv
    rw [List.length_map]
    simp only [List.length_map] at h
    exact not_not.mp h

/-- C7: `openai_embed` raises exactly when the number of returned embedding
vectors differs from the number of input texts (never silently padding or
truncating — on success it returns exactly one vector per input), and when
that mismatch occurs during indexing, `persist_compressed_and_index` commits
no chunk rows for the document. -/
theorem C7_embed_count_mismatch_fails_loudly :
    (∀ (texts : List String) (resp : EmbedResponse),
      (∃ msg, openai_embed texts resp = Except.error msg) ↔
        resp.data.length ≠ texts.length) ∧
    (∀ (texts : List String) (resp : EmbedResponse) (v : List (List ℚ)),
      openai_embed texts resp = Except.ok v → v.length = texts.length) ∧
    (∀ (compressed : String) (ct : ℕ) (resp : EmbedResponse),
      resp.data.length ≠ (chunk_for_embeddings compressed ct).length →
      persist_compressed_and_index compressed ct resp = []) := by
  refine ⟨openai_embed_error_iff, openai_embed_ok_length, ?_⟩
  intro compressed ct resp hmis
  unfold persist_compressed_and_index
  by_cases h1 : pyStrip compressed = ""
  · rw [if_pos h1]
  · rw [if_neg h1]
    by_cases h2 : chunk_for_embeddings compressed ct = []
    · rw [if_pos h2]
    · rw [if_neg h2]
      obtain ⟨msg, hmsg⟩ := (openai_embed_error_iff (chunk_for_embeddings compressed ct) resp).mpr hmis
      rw [hmsg]

/-- Witness for C7 at the spec's scenario: 3 returned vectors for a document
that chunks into 4 retrieval units (16 characters, one token per chunk); no
chunk rows are persisted. -/
theorem C7_embed_count_mismatch_fails_loudly_witness :
    persist_compressed_and_index "abcdefghijklmnop" 1 respThree = [] :=
  C7_embed_count_mismatch_fails_loudly.2.2 "abcdefghijklmnop" 1 respThree (by decide)

/-! ## Boot-time recovery theorems -/

/-- C8 counterexample: a job interrupted in the `summarizing` state — a
non-terminal state of the machine, set by `progressive_summarize_corpus` — is
*not* re-marked `queued` by `_resume_interrupted_jobs`; its status is left as
`summarizing`. -/
theorem C8_summarizing_not_resumed :
    _resume_interrupted_jobs [⟨"j1", "summarizing"⟩] = [⟨"j1", "summarizing"⟩] ∧
    ("summarizing" : String) ≠ "queued" := by
  constructor
  · decide
  · decide

/-- C8 (amended): the recovery pass re-marks as `queued` exactly the jobs whose
status is one of `queued`, `starting`, `logging_in`, `compressing`; jobs in any
other state — including `summarizing` and the crawler-reported intermediate
statuses — are left unchanged. -/
theorem C8_resume_exact_filter (jobs : List JobRec) (i : ℕ) :
    (_resume_interrupted_jobs jobs)[i]? =
      jobs[i]?.map (fun j =>
        if j.status ∈ resumeStatuses then { j with status := "queued" } else j) := by
  unfold _resume_interrupted_jobs
  rw [List.getElem?_map]

/-! ## Scheduler theorems -/

/-- C9: system-wide mutual exclusion of the crawl+compress critical section.
In every state reachable under any interleaving of `K` worker threads — each
acquiring `JOB_LOCK` through `_wait_for_job_slot` before `run_scrape_and_index`
and releasing it afterwards — at most one thread is inside the critical
section: any two threads in the critical section are equal. -/
theorem C9_slot_exclusive (n : ℕ) (s : SchedState n) (hs : SchedReachable n s)
    (t₁ t₂ : Fin n) (h1 : s.phase t₁ = WorkerPhase.critical)
    (h2 : s.phase t₂ = WorkerPhase.critical) : t₁ = t₂ := by
  have inv : ∀ u, s.phase u = WorkerPhase.critical → s.lockHeld = some u := by
    clear h1 h2
    induction hs with
    | refl =>
      intro u hu
      exact absurd hu (by simp [initSched])
    | tail hreach hstep ih =>
      intro u hu
      cases hstep with
      | acquire t hlock hwait =>
        dsimp only at hu ⊢
        by_cases hut : u = t
        · subst hut
          rfl
        · rw [Function.update_noteq hut] at hu
          have hlock' := ih u hu
          rw [hlock] at hlock'
          exact absurd hlock' (by simp)
      | release t hcrit =>
        dsimp only at hu ⊢
        by_cases hut : u = t
        · subst hut
          rw [Function.update_same] at hu
          exact absurd hu (by simp)
        · rw [Function.update_noteq hut] at hu
          have hu' := ih u hu
          have ht' := ih t hcrit
          exact absurd (Option.some_injective _ (hu'.symm.trans ht')) hut
  exact Option.some_injective _ ((inv t₁ h1).symm.trans (inv t₂ h2))

/-- Witness for C9 in the reachable state where worker 0 (of 1) holds the
slot. -/
theorem C9_slot_exclusive_witness : (0 : Fin 1) = 0 :=
  C9_slot_exclusive 1 c9s1
    (Relation.ReflTransGen.single (SchedStep.acquire (initSched 1) 0 rfl rfl)) 0 0
    (by simp [c9s1, Function.update_same]) (by simp [c9s1, Function.update_same])

end Chanvas
